import Mathlib

/-!
Verification of the crawler (TP1/crawler.py) and the index builder (TP2/index.py).

The index builder is embedded over association lists modelling Python dicts
(insertion-ordered, unique keys).  The tokenizer (spaCy in the source) is an
external collaborator, modelled as an arbitrary function from text to token
lists; a concrete stand-in tokenizer is provided for witnesses.

The crawler loop is embedded as a step function on an explicit state record,
with the external HTTP world (robots answers and per-page link lists) passed
as a parameter.  A fetched page contributes one product record carrying the
fetched url, so the output corpus is modelled as the list of fetched urls.
-/

/-! ### Character-level string helpers

Python string operations used by the source (startswith, substring membership,
urlparse path extraction) are modelled directly on the character list of a
Lean string, so that all of them evaluate by kernel reduction. -/

/-- Python str.startswith, on character lists. -/
def startsWithChars : List Char → List Char → Bool
  | _, [] => true
  | [], _ :: _ => false
  | c :: cs, p :: ps => c = p && startsWithChars cs ps

/-- Python substring membership (the in operator), on character lists. -/
def containsSub (pat : List Char) : List Char → Bool
  | [] => startsWithChars [] pat
  | c :: cs => startsWithChars (c :: cs) pat || containsSub pat cs

/-- Python substring membership on strings. -/
def strContains (s pat : String) : Bool := containsSub pat.data s.data

/-- Characters of a string before the first occurrence of any stop character.
Used to cut a url at the query or fragment separator, as urlparse does. -/
def takeUntil (stop : List Char) : List Char → List Char
  | [] => []
  | c :: cs => if c ∈ stop then [] else c :: takeUntil stop cs

/-- Drop the host part of a scheme-stripped url: everything before the first
slash. -/
def dropHost : List Char → List Char
  | [] => []
  | c :: cs => if c = '/' then c :: cs else dropHost cs

/-- The path component of a url, as urlparse(url).path computes it: for an
absolute http(s) url, the part after the host and before any query or
fragment; for a scheme-less url, the url itself up to a query or fragment. -/
def urlPath (u : String) : String :=
  let core := takeUntil ['?', '#'] u.data
  if startsWithChars core "http://".data then String.mk (dropHost (core.drop 7))
  else if startsWithChars core "https://".data then String.mk (dropHost (core.drop 8))
  else String.mk core

/-- url.startswith("http://") or url.startswith("https://"), the validity
check of the crawl loop. -/
def isHttpUrl (u : String) : Bool :=
  startsWithChars u.data "http://".data || startsWithChars u.data "https://".data

/-- urlparse(url).path.startswith("/product/"), the product-page test of the
crawl loop. -/
def productShaped (u : String) : Bool :=
  startsWithChars (urlPath u).data "/product/".data

/-- Helper for the stand-in tokenizer: split a character list into
space-separated words, accumulating the current word in reverse. -/
def wordsAux : List Char → List Char → List String
  | [], acc => if acc = [] then [] else [String.mk acc.reverse]
  | c :: cs, acc =>
    if c = ' ' then
      (if acc = [] then wordsAux cs [] else String.mk acc.reverse :: wordsAux cs [])
    else wordsAux cs (c :: acc)

/-- A concrete stand-in for the external tokenizer (spaCy in the source is a
black box per the design: text to ordered token sequence).  Splits on spaces.
Used only to instantiate witnesses and counterexamples. -/
def simpleTokenize (text : String) : List String := wordsAux text.data []

/-! ### Python dict model

An association list with unique keys, insertion ordered: lookup scans for the
key, update replaces the value in place, insertion appends at the end.  This
matches the observable behaviour of a Python dict. -/

abbrev Dict (α : Type) := List (String × α)

/-- Dict lookup, d.get(k) / d[k]. -/
def dictGet {α : Type} : Dict α → String → Option α
  | [], _ => none
  | (k0, v0) :: d, k => if k0 = k then some v0 else dictGet d k

/-- Dict update, d[k] = v: replace in place if the key exists, else append. -/
def dictSet {α : Type} : Dict α → String → α → Dict α
  | [], k, v => [(k, v)]
  | (k0, v0) :: d, k, v => if k0 = k then (k, v) :: d else (k0, v0) :: dictSet d k v

theorem dictGet_set_self {α : Type} (d : Dict α) (k : String) (v : α) :
    dictGet (dictSet d k v) k = some v := by
  induction d with
  | nil => simp [dictSet, dictGet]
  | cons p d ih =>
    obtain ⟨k0, v0⟩ := p
    by_cases h : k0 = k
    · simp [dictSet, dictGet, h]
    · simp [dictSet, dictGet, h, ih]

theorem dictGet_set_ne {α : Type} (d : Dict α) (k k' : String) (v : α) (h : k' ≠ k) :
    dictGet (dictSet d k v) k' = dictGet d k' := by
  induction d with
  | nil =>
    simp only [dictSet, dictGet]
    rw [if_neg (fun hh : k = k' => h hh.symm)]
  | cons p d ih =>
    obtain ⟨k0, v0⟩ := p
    by_cases h0 : k0 = k
    · subst h0
      simp only [dictSet, if_pos rfl, dictGet]
      rw [if_neg (fun hh : k0 = k' => h hh.symm), if_neg (fun hh : k0 = k' => h hh.symm)]
    · simp only [dictSet, if_neg h0, dictGet]
      by_cases h1 : k0 = k'
      · rw [if_pos h1, if_pos h1]
      · rw [if_neg h1, if_neg h1, ih]

theorem dictSet_noop {α : Type} (d : Dict α) (k : String) (v : α)
    (h : dictGet d k = some v) : dictSet d k v = d := by
  induction d with
  | nil => simp [dictGet] at h
  | cons p d ih =>
    obtain ⟨k0, v0⟩ := p
    by_cases h0 : k0 = k
    · subst h0
      simp [dictGet] at h
      simp [dictSet, h]
    · simp [dictGet, h0] at h
      simp [dictSet, h0, ih h]

/-! ### TP2/index.py: word_positions -/

/-- Loop body of word_positions: for index, token in enumerate(tokens),
append the index to the position list of the token (creating it if absent). -/
def wpAux (positions : Dict (List Nat)) (index : Nat) : List String → Dict (List Nat)
  | [] => positions
  | token :: rest =>
    wpAux (dictSet positions token (((dictGet positions token).getD []) ++ [index])) (index + 1) rest

/-- word_positions(tokens): map each token to the list of its zero-based
indices in the token list. -/
def word_positions (tokens : List String) : Dict (List Nat) := wpAux [] 0 tokens

/-- The indices at which token t occurs in ts, counting from i upward. -/
def occFrom (i : Nat) (t : String) : List String → List Nat
  | [] => []
  | s :: rest => if s = t then i :: occFrom (i + 1) t rest else occFrom (i + 1) t rest

theorem mem_occFrom (t : String) :
    ∀ (ts : List String) (i p : Nat),
      p ∈ occFrom i t ts ↔ ∃ j, ts.get? j = some t ∧ p = i + j := by
  intro ts
  induction ts with
  | nil => intro i p; simp [occFrom]
  | cons s rest ih =>
    intro i p
    by_cases h : s = t
    · simp only [occFrom, if_pos h, List.mem_cons, ih]
      constructor
      · rintro (rfl | ⟨j, hj, hp⟩)
        · exact ⟨0, by simp [h], by omega⟩
        · exact ⟨j + 1, by simpa using hj, by omega⟩
      · rintro ⟨j, hj, hp⟩
        cases j with
        | zero => left; omega
        | succ j => right; exact ⟨j, by simpa using hj, by omega⟩
    · simp only [occFrom, if_neg h, ih]
      constructor
      · rintro ⟨j, hj, hp⟩
        exact ⟨j + 1, by simpa using hj, by omega⟩
      · rintro ⟨j, hj, hp⟩
        cases j with
        | zero => simp only [List.get?] at hj; exact absurd (Option.some.inj hj) h
        | succ j => exact ⟨j, by simpa using hj, by omega⟩

theorem occFrom_lb (t : String) :
    ∀ (ts : List String) (i p : Nat), p ∈ occFrom i t ts → i ≤ p := by
  intro ts i p h
  obtain ⟨j, -, rfl⟩ := (mem_occFrom t ts i p).mp h
  omega

theorem occFrom_sorted (t : String) :
    ∀ (ts : List String) (i : Nat), List.Sorted (· < ·) (occFrom i t ts) := by
  intro ts
  induction ts with
  | nil => intro i; simp [occFrom]
  | cons s rest ih =>
    intro i
    by_cases h : s = t
    · simp only [occFrom, if_pos h]
      rw [List.sorted_cons]
      exact ⟨fun b hb => by have := occFrom_lb t rest (i + 1) b hb; omega, ih (i + 1)⟩
    · simpa only [occFrom, if_neg h] using ih (i + 1)

theorem dictGet_wpAux_some (t : String) :
    ∀ (ts : List String) (d : Dict (List Nat)) (i : Nat) (l : List Nat),
      dictGet d t = some l →
      dictGet (wpAux d i ts) t = some (l ++ occFrom i t ts) := by
  intro ts
  induction ts with
  | nil => intro d i l h; simpa [wpAux, occFrom] using h
  | cons s rest ih =>
    intro d i l h
    by_cases hs : s = t
    · subst hs
      have hset : dictGet (dictSet d s (((dictGet d s).getD []) ++ [i])) s = some (l ++ [i]) := by
        rw [h, dictGet_set_self]
        simp
      have := ih _ (i + 1) (l ++ [i]) hset
      simp only [wpAux, this, occFrom, if_pos rfl]
      simp
    · have hset : dictGet (dictSet d s (((dictGet d s).getD []) ++ [i])) t = some l := by
        rw [dictGet_set_ne _ _ _ _ (fun hh => hs hh.symm), h]
      have := ih _ (i + 1) l hset
      simp only [wpAux, this, occFrom, if_neg hs]

theorem dictGet_wpAux_none (t : String) :
    ∀ (ts : List String) (d : Dict (List Nat)) (i : Nat),
      dictGet d t = none →
      dictGet (wpAux d i ts) t = if t ∈ ts then some (occFrom i t ts) else none := by
  intro ts
  induction ts with
  | nil => intro d i h; simpa [wpAux] using h
  | cons s rest ih =>
    intro d i h
    by_cases hs : s = t
    · subst hs
      have hset : dictGet (dictSet d s (((dictGet d s).getD []) ++ [i])) s = some [i] := by
        rw [h, dictGet_set_self]
        simp
      have := dictGet_wpAux_some s rest _ (i + 1) [i] hset
      simp only [wpAux, this, occFrom, if_pos rfl]
      simp
    · have hset : dictGet (dictSet d s (((dictGet d s).getD []) ++ [i])) t = none := by
        rw [dictGet_set_ne _ _ _ _ (fun hh => hs hh.symm), h]
      have h2 := ih _ (i + 1) hset
      have hmem : (t ∈ s :: rest) ↔ t ∈ rest := by
        simp only [List.mem_cons]
        exact or_iff_right (fun hh => hs hh.symm)
      simp only [wpAux, h2, occFrom, if_neg hs, hmem]

theorem dictGet_word_positions (tokens : List String) (t : String) :
    dictGet (word_positions tokens) t =
      if t ∈ tokens then some (occFrom 0 t tokens) else none :=
  dictGet_wpAux_none t tokens [] 0 rfl

/-! ### TP2/index.py: create_inverted_index -/

/-- Inner loop body of create_inverted_index: for a token of the current
document, ensure index[token] exists (empty dict if absent) and write
index[token][url] = positions[token]. -/
def indexWrite (url : String) (positions : Dict (List Nat))
    (index : Dict (Dict (List Nat))) (token : String) : Dict (Dict (List Nat)) :=
  dictSet index token
    (dictSet ((dictGet index token).getD []) url ((dictGet positions token).getD []))

/-- Per-document step of create_inverted_index: tokenize the field text,
compute the positions dict, then write one entry per token occurrence. -/
def cii_step (tokenize : String → List String)
    (index : Dict (Dict (List Nat))) (r : String × String) : Dict (Dict (List Nat)) :=
  let tokens := tokenize r.2
  let positions := word_positions tokens
  tokens.foldl (indexWrite r.1 positions) index

/-- create_inverted_index(data, field): data is the list of (url, field text)
pairs of the corpus column being indexed, in corpus order; tokenize is the
external tokenizer. -/
def create_inverted_index (tokenize : String → List String)
    (data : List (String × String)) : Dict (Dict (List Nat)) :=
  data.foldl (cii_step tokenize) []

/-- Two-level lookup index[t][u]. -/
def lookup2 (index : Dict (Dict (List Nat))) (t u : String) : Option (List Nat) :=
  (dictGet index t).bind (fun inner => dictGet inner u)

theorem lookup2_indexWrite (url : String) (positions : Dict (List Nat))
    (index : Dict (Dict (List Nat))) (tk t u : String) :
    lookup2 (indexWrite url positions index tk) t u =
      if t = tk ∧ u = url then some ((dictGet positions tk).getD [])
      else lookup2 index t u := by
  by_cases ht : t = tk
  · subst ht
    unfold indexWrite lookup2
    rw [dictGet_set_self]
    by_cases hu : u = url
    · subst hu
      rw [if_pos ⟨rfl, rfl⟩]
      simp only [Option.some_bind]
      exact dictGet_set_self _ _ _
    · rw [if_neg (fun hh => hu hh.2)]
      simp only [Option.some_bind]
      rw [dictGet_set_ne _ _ _ _ hu]
      cases hidx : dictGet index t with
      | none => simp [hidx, dictGet]
      | some inner => simp [hidx]
  · unfold indexWrite lookup2
    rw [dictGet_set_ne _ _ _ _ ht, if_neg (fun hh => ht hh.1)]

theorem lookup2_foldl_indexWrite (url : String) (positions : Dict (List Nat)) (t u : String) :
    ∀ (tokens : List String) (index : Dict (Dict (List Nat))),
      lookup2 (tokens.foldl (indexWrite url positions) index) t u =
        if t ∈ tokens ∧ u = url then some ((dictGet positions t).getD [])
        else lookup2 index t u := by
  intro tokens
  induction tokens with
  | nil => intro index; simp
  | cons tk rest ih =>
    intro index
    simp only [List.foldl_cons, ih, lookup2_indexWrite]
    by_cases hu : u = url
    · subst hu
      by_cases hr : t ∈ rest
      · rw [if_pos ⟨hr, rfl⟩, if_pos ⟨List.mem_cons_of_mem tk hr, rfl⟩]
      · by_cases htk : t = tk
        · subst htk
          rw [if_neg (fun hh => hr hh.1), if_pos ⟨rfl, rfl⟩, if_pos ⟨List.mem_cons_self t rest, rfl⟩]
        · rw [if_neg (fun hh => hr hh.1), if_neg (fun hh => htk hh.1),
            if_neg (fun hh => (List.mem_cons.mp hh.1).elim htk hr)]
    · rw [if_neg (fun hh => hu hh.2), if_neg (fun hh => hu hh.2), if_neg (fun hh => hu hh.2)]

theorem lookup2_cii_untouched (tokenize : String → List String) (t u : String) :
    ∀ (data : List (String × String)) (index : Dict (Dict (List Nat))),
      u ∉ data.map Prod.fst →
      lookup2 (data.foldl (cii_step tokenize) index) t u = lookup2 index t u := by
  intro data
  induction data with
  | nil => intro index _; rfl
  | cons r rest ih =>
    intro index hu
    simp only [List.map_cons, List.mem_cons] at hu
    push_neg at hu
    simp only [List.foldl_cons, ih _ hu.2]
    unfold cii_step
    rw [lookup2_foldl_indexWrite, if_neg (fun hh => hu.1 hh.2)]

theorem lookup2_cii_found (tokenize : String → List String) (t u text : String) :
    ∀ (data : List (String × String)),
      (data.map Prod.fst).Nodup → (u, text) ∈ data →
      ∀ index : Dict (Dict (List Nat)),
        lookup2 (data.foldl (cii_step tokenize) index) t u =
          if t ∈ tokenize text then some (occFrom 0 t (tokenize text))
          else lookup2 index t u := by
  intro data
  induction data with
  | nil => intro _ hmem; exact absurd hmem (List.not_mem_nil _)
  | cons r rest ih =>
    intro hnd hmem index
    simp only [List.map_cons, List.nodup_cons] at hnd
    rcases List.mem_cons.mp hmem with heq | hrest
    · subst heq
      simp only [List.foldl_cons]
      rw [lookup2_cii_untouched tokenize t u rest _ hnd.1]
      unfold cii_step
      rw [lookup2_foldl_indexWrite]
      by_cases hmemtok : t ∈ tokenize text
      · rw [if_pos ⟨hmemtok, rfl⟩, if_pos hmemtok, dictGet_word_positions, if_pos hmemtok]
        simp
      · rw [if_neg (fun hh => hmemtok hh.1), if_neg hmemtok]
    · have hne : u ≠ r.1 := by
        intro hh
        exact hnd.1 (hh ▸ List.mem_map_of_mem Prod.fst hrest)
      simp only [List.foldl_cons]
      rw [ih hnd.2 hrest]
      by_cases hmemtok : t ∈ tokenize text
      · rw [if_pos hmemtok, if_pos hmemtok]
      · rw [if_neg hmemtok, if_neg hmemtok]
        unfold cii_step
        rw [lookup2_foldl_indexWrite, if_neg (fun hh => hne hh.2)]

theorem lookup2_create_inverted_index (tokenize : String → List String)
    (data : List (String × String)) (hnd : (data.map Prod.fst).Nodup)
    (u text : String) (hmem : (u, text) ∈ data) (t : String) :
    lookup2 (create_inverted_index tokenize data) t u =
      if t ∈ tokenize text then some (occFrom 0 t (tokenize text)) else none := by
  unfold create_inverted_index
  rw [lookup2_cii_found tokenize t u text data hnd hmem []]
  rfl

/-! ### The distinct-token variant of the inner write loop (refinement target)

Modelled from the spec: iterate the distinct-token set of the document, in
first-occurrence order, instead of the raw token stream, writing the same
positional entries. -/

/-- The distinct tokens of a list, in order of first occurrence. -/
def firstOccurrences : List String → List String
  | [] => []
  | t :: rest => t :: firstOccurrences (rest.filter (fun s => !(s = t : Bool)))
termination_by l => l.length
decreasing_by
  exact Nat.lt_succ_of_le (List.length_filter_le _ _)

/-- Per-document step of the distinct-token construction. -/
def cii_step_distinct (tokenize : String → List String)
    (index : Dict (Dict (List Nat))) (r : String × String) : Dict (Dict (List Nat)) :=
  let tokens := tokenize r.2
  let positions := word_positions tokens
  (firstOccurrences tokens).foldl (indexWrite r.1 positions) index

/-- Modelled from the spec: the inverted-index construction that writes one
positional entry per distinct token of each document. -/
def create_inverted_index_distinct (tokenize : String → List String)
    (data : List (String × String)) : Dict (Dict (List Nat)) :=
  data.foldl (cii_step_distinct tokenize) []

theorem indexWrite_noop (url : String) (positions : Dict (List Nat))
    (index : Dict (Dict (List Nat))) (t : String)
    (h : lookup2 index t url = some ((dictGet positions t).getD [])) :
    indexWrite url positions index t = index := by
  unfold lookup2 at h
  cases hidx : dictGet index t with
  | none => rw [hidx] at h; simp at h
  | some inner =>
    rw [hidx] at h
    simp only [Option.some_bind] at h
    unfold indexWrite
    rw [hidx]
    simp only [Option.getD_some]
    rw [dictSet_noop inner url _ h, dictSet_noop index t inner hidx]

theorem foldl_indexWrite_dedup (url : String) (positions : Dict (List Nat)) (t : String) :
    ∀ (ts : List String) (index : Dict (Dict (List Nat))),
      lookup2 index t url = some ((dictGet positions t).getD []) →
      ts.foldl (indexWrite url positions) index =
        (ts.filter (fun s => !(s = t : Bool))).foldl (indexWrite url positions) index := by
  intro ts
  induction ts with
  | nil => intro index _; rfl
  | cons s rest ih =>
    intro index h
    by_cases hs : s = t
    · subst hs
      have hfilter : (s :: rest).filter (fun x => !(x = s : Bool)) =
          rest.filter (fun x => !(x = s : Bool)) := by
        simp [List.filter_cons]
      rw [hfilter, List.foldl_cons, indexWrite_noop url positions index s h, ih index h]
    · have hfilter : (s :: rest).filter (fun x => !(x = t : Bool)) =
          s :: rest.filter (fun x => !(x = t : Bool)) := by
        simp [List.filter_cons, hs]
      rw [hfilter, List.foldl_cons, List.foldl_cons]
      apply ih
      rw [lookup2_indexWrite, if_neg (fun hh => hs hh.1.symm)]
      exact h

theorem foldl_indexWrite_firstOcc (url : String) (positions : Dict (List Nat)) :
    ∀ (ts : List String) (index : Dict (Dict (List Nat))),
      ts.foldl (indexWrite url positions) index =
        (firstOccurrences ts).foldl (indexWrite url positions) index := by
  intro ts
  induction ts using firstOccurrences.induct with
  | case1 => intro index; rw [firstOccurrences]
  | case2 t rest ih =>
    intro index
    rw [firstOccurrences, List.foldl_cons, List.foldl_cons]
    have hlook : lookup2 (indexWrite url positions index t) t url =
        some ((dictGet positions t).getD []) := by
      rw [lookup2_indexWrite, if_pos ⟨rfl, rfl⟩]
    rw [foldl_indexWrite_dedup url positions t rest _ hlook, ih]

/-! ### TP2/index.py: create_reviews_index -/

/-- A review as extracted by the crawler: id, rating, content. -/
structure Review where
  id : Option String
  rating : Int
  content : Option String
deriving DecidableEq

/-- The per-url aggregate stored by create_reviews_index. -/
structure ReviewStats where
  total_reviews : Nat
  mean_mark : ℚ
  last_rating : Option Int
deriving DecidableEq

/-- The aggregate computed in the body of the create_reviews_index loop:
total_reviews = len(reviews), mean_mark = sum(ratings)/total if total > 0
else 0, last_rating = reviews[-1].rating if total > 0 else None. -/
def reviewStats (reviews : List Review) : ReviewStats :=
  let total_reviews := reviews.length
  let mean_mark : ℚ :=
    if 0 < total_reviews then (((reviews.map Review.rating).sum : Int) : ℚ) / (total_reviews : ℚ)
    else 0
  let last_rating : Option Int :=
    if 0 < total_reviews then (reviews.getLast?).map Review.rating else none
  ⟨total_reviews, mean_mark, last_rating⟩

/-- create_reviews_index(data): data is the list of (url, reviews) pairs of
the corpus, in corpus order. -/
def create_reviews_index (data : List (String × List Review)) : Dict ReviewStats :=
  data.foldl (fun index r => dictSet index r.1 (reviewStats r.2)) []

theorem reviews_foldl_untouched (u : String) :
    ∀ (data : List (String × List Review)) (index : Dict ReviewStats),
      u ∉ data.map Prod.fst →
      dictGet (data.foldl (fun index r => dictSet index r.1 (reviewStats r.2)) index) u =
        dictGet index u := by
  intro data
  induction data with
  | nil => intro index _; rfl
  | cons r rest ih =>
    intro index hu
    simp only [List.map_cons, List.mem_cons] at hu
    push_neg at hu
    rw [List.foldl_cons, ih _ hu.2, dictGet_set_ne _ _ _ _ hu.1]

theorem reviews_foldl_found (u : String) (revs : List Review) :
    ∀ (data : List (String × List Review)),
      (data.map Prod.fst).Nodup → (u, revs) ∈ data →
      ∀ index : Dict ReviewStats,
        dictGet (data.foldl (fun index r => dictSet index r.1 (reviewStats r.2)) index) u =
          some (reviewStats revs) := by
  intro data
  induction data with
  | nil => intro _ hmem; exact absurd hmem (List.not_mem_nil _)
  | cons r rest ih =>
    intro hnd hmem index
    simp only [List.map_cons, List.nodup_cons] at hnd
    rcases List.mem_cons.mp hmem with heq | hrest
    · subst heq
      rw [List.foldl_cons, reviews_foldl_untouched u rest _ hnd.1, dictGet_set_self]
    · rw [List.foldl_cons]
      exact ih hnd.2 hrest _

/-! ### TP2/index.py: create_features_index -/

/-- Per-record step of create_features_index: look the feature up in the
record features dict; a missing key or an empty value contributes no tokens
(Python: remove_stopwords_punctuation(feature_value) if feature_value else []);
otherwise add the record url to the url set of every token of the tokenized
value.  The Python url set is modelled as an insertion-ordered list without
duplicates; the final list(...) materialization is the identity on it. -/
def cfi_step (tokenize : String → List String) (feature : String)
    (index : Dict (List String)) (r : String × Dict String) : Dict (List String) :=
  let feature_value :=
    match dictGet r.2 feature with
    | some v => if v = "" then [] else tokenize v
    | none => []
  feature_value.foldl (fun index token =>
    let urls := (dictGet index token).getD []
    dictSet index token (if r.1 ∈ urls then urls else urls ++ [r.1])) index

/-- create_features_index(data, feature): data is the list of
(url, product_features) pairs of the corpus, in corpus order. -/
def create_features_index (tokenize : String → List String)
    (data : List (String × Dict String)) (feature : String) : Dict (List String) :=
  data.foldl (cfi_step tokenize feature) []

/-! ### Field access on records that may lack the field

The corpus is read into a dataframe; a record without the field carries a
non-string null there.  Modelled from the source and its collaborator:
remove_stopwords_punctuation calls the spaCy pipeline on the field value,
which raises on a non-string input, so a missing field value aborts the
whole build; this is modelled as Except.error. -/
def create_inverted_index_opt (tokenize : String → List String)
    (data : List (String × Option String)) : Except Unit (Dict (Dict (List Nat))) :=
  data.foldlM (fun index r =>
    match r.2 with
    | none => Except.error ()
    | some text => Except.ok (cii_step tokenize index (r.1, text))) []

theorem create_inverted_index_opt_total (tokenize : String → List String) :
    ∀ (data : List (String × Option String)),
      (∀ r ∈ data, r.2.isSome = true) →
      ∀ index, data.foldlM (fun index r =>
          match r.2 with
          | none => Except.error ()
          | some text => Except.ok (cii_step tokenize index (r.1, text))) index =
        Except.ok (data.foldl
          (fun index r => cii_step tokenize index (r.1, (r.2).getD "")) index) := by
  intro data
  induction data with
  | nil => intro _ index; rfl
  | cons r rest ih =>
    intro hall index
    obtain ⟨text, htext⟩ := Option.isSome_iff_exists.mp (hall r (List.mem_cons_self r rest))
    have hrest : ∀ x ∈ rest, x.2.isSome = true :=
      fun x hx => hall x (List.mem_cons_of_mem r hx)
    simp only [List.foldlM_cons, htext, List.foldl_cons, Option.getD_some]
    exact ih hrest _

/-! ### TP1/crawler.py: can_crawl

The HTTP fetch of the robots file is the external collaborator: it either
returns a response (status code and body text) or raises a transport error.
can_crawl itself does not catch: a raised fetch error propagates, modelled
by returning it in Except. -/

/-- A robots.txt fetch response: status code and body text. -/
structure RobotsResponse where
  status_code : Nat
  text : String
deriving DecidableEq

/-- can_crawl(url): fetch url + "/robots.txt"; on a 200 response refuse
(return false) when the body contains the substring "Disallow: /", otherwise
allow; on a non-200 response allow; a raised fetch error is not caught and
propagates. -/
def can_crawl (get : String → Except Unit RobotsResponse) (url : String) : Except Unit Bool :=
  match get (url ++ "/robots.txt") with
  | Except.error e => Except.error e
  | Except.ok response =>
    if response.status_code = 200 then
      if strContains response.text "Disallow: /" then Except.ok false else Except.ok true
    else Except.ok true

/-! ### TP1/crawler.py: crawl -/

/-- The external world of a crawl run: the boolean outcome of the robots
gate for each url, and the link list (href attributes, possibly None) of the
single product record extracted from each fetched page. -/
structure World where
  canCrawl : String → Bool
  links : String → List (Option String)

/-- The mutable state of the crawl loop: output corpus (as the list of
fetched urls, one product record per fetched page), the priority queue being
traversed, the non-priority bookkeeping list, the visited set (as an
insertion-ordered list), the pages-crawled counter i, and the iteration
position in the priority queue. -/
structure CrawlState where
  output : List String
  urls_priority : List String
  urls_non_priority : List String
  visited : List String
  i : Nat
  pos : Nat
deriving DecidableEq

/-- Body of the inner link loop: skip None; enqueue a product-path link not
yet visited, marking it visited; otherwise append the link to the
non-priority list when it is not already there. -/
def processLink (s : CrawlState) (l : Option String) : CrawlState :=
  match l with
  | none => s
  | some u =>
    if productShaped u && !(s.visited.contains u) then
      { s with urls_priority := s.urls_priority ++ [u], visited := s.visited ++ [u] }
    else if !(s.urls_non_priority.contains u) then
      { s with urls_non_priority := s.urls_non_priority ++ [u] }
    else s

/-- One fetch of url: process every outbound link of the page, append the
extracted record (carrying the fetched url) to the output, increment the
page counter, and move to the next queue position. -/
def fetchStep (w : World) (s : CrawlState) (url : String) : CrawlState :=
  let s1 := (w.links url).foldl processLink s
  { s1 with output := s1.output ++ [url], i := s1.i + 1, pos := s1.pos + 1 }

theorem processLink_i (s : CrawlState) (l : Option String) : (processLink s l).i = s.i := by
  cases l with
  | none => rfl
  | some u =>
    simp only [processLink]
    split
    · rfl
    · split <;> rfl

theorem processLink_pos (s : CrawlState) (l : Option String) : (processLink s l).pos = s.pos := by
  cases l with
  | none => rfl
  | some u =>
    simp only [processLink]
    split
    · rfl
    · split <;> rfl

theorem processLink_output (s : CrawlState) (l : Option String) :
    (processLink s l).output = s.output := by
  cases l with
  | none => rfl
  | some u =>
    simp only [processLink]
    split
    · rfl
    · split <;> rfl

theorem processLink_queue_ext (s : CrawlState) (l : Option String) :
    ∃ ext, (processLink s l).urls_priority = s.urls_priority ++ ext := by
  cases l with
  | none => exact ⟨[], by simp [processLink]⟩
  | some u =>
    simp only [processLink]
    split
    · exact ⟨[u], rfl⟩
    · split
      · exact ⟨[], by simp⟩
      · exact ⟨[], by simp⟩

theorem foldl_processLink_i (ls : List (Option String)) :
    ∀ s : CrawlState, (ls.foldl processLink s).i = s.i := by
  induction ls with
  | nil => intro s; rfl
  | cons l rest ih => intro s; rw [List.foldl_cons, ih, processLink_i]

theorem foldl_processLink_pos (ls : List (Option String)) :
    ∀ s : CrawlState, (ls.foldl processLink s).pos = s.pos := by
  induction ls with
  | nil => intro s; rfl
  | cons l rest ih => intro s; rw [List.foldl_cons, ih, processLink_pos]

theorem foldl_processLink_output (ls : List (Option String)) :
    ∀ s : CrawlState, (ls.foldl processLink s).output = s.output := by
  induction ls with
  | nil => intro s; rfl
  | cons l rest ih => intro s; rw [List.foldl_cons, ih, processLink_output]

theorem foldl_processLink_queue_ext (ls : List (Option String)) :
    ∀ s : CrawlState, ∃ ext, (ls.foldl processLink s).urls_priority = s.urls_priority ++ ext := by
  induction ls with
  | nil => intro s; exact ⟨[], by simp⟩
  | cons l rest ih =>
    intro s
    obtain ⟨e1, he1⟩ := processLink_queue_ext s l
    obtain ⟨e2, he2⟩ := ih (processLink s l)
    exact ⟨e1 ++ e2, by rw [List.foldl_cons, he2, he1, List.append_assoc]⟩

/-- One iteration of the crawl loop (the for over urls_priority): none means
the loop exits (queue exhausted, or page budget reached at the break check);
some s' is the state after one iteration, which either skips the current url
(not absolute http(s), or robots-refused) or fetches it. -/
def crawlStep (w : World) (nb : Nat) (s : CrawlState) : Option CrawlState :=
  if _hpos : s.pos < s.urls_priority.length then
    if nb ≤ s.i then none
    else
      if isHttpUrl s.urls_priority[s.pos] then
        if w.canCrawl s.urls_priority[s.pos] then some (fetchStep w s s.urls_priority[s.pos])
        else some { s with pos := s.pos + 1 }
      else some { s with pos := s.pos + 1 }
  else none

theorem crawlStep_cases (w : World) (nb : Nat) (s s' : CrawlState)
    (h : crawlStep w nb s = some s') :
    ∃ _ : s.pos < s.urls_priority.length, s.i < nb ∧
      (s' = fetchStep w s s.urls_priority[s.pos] ∨ s' = { s with pos := s.pos + 1 }) := by
  unfold crawlStep at h
  split at h
  · split at h
    · exact absurd h (by simp)
    · split at h
      · split at h
        · exact ⟨by assumption, by omega, Or.inl (Option.some.inj h).symm⟩
        · exact ⟨by assumption, by omega, Or.inr (Option.some.inj h).symm⟩
      · exact ⟨by assumption, by omega, Or.inr (Option.some.inj h).symm⟩
  · exact absurd h (by simp)

theorem crawlStep_none (w : World) (nb : Nat) (s : CrawlState)
    (h : crawlStep w nb s = none) :
    s.urls_priority.length ≤ s.pos ∨ nb ≤ s.i := by
  unfold crawlStep at h
  split at h
  · split at h
    · right; omega
    · split at h
      · split at h <;> simp_all
      · simp_all
  · left; omega

/-- The crawl loop: iterate crawlStep until it exits.  Termination: a fetch
decreases the remaining page budget; a skip leaves the queue unchanged and
moves the position forward; the queue grows only on a fetch. -/
def crawlLoop (w : World) (nb : Nat) (s : CrawlState) : CrawlState :=
  match h : crawlStep w nb s with
  | none => s
  | some s' => crawlLoop w nb s'
termination_by (nb - s.i, s.urls_priority.length - s.pos)
decreasing_by
  obtain ⟨h1, h2, h3⟩ := crawlStep_cases w nb s s' h
  rcases h3 with rfl | rfl
  · exact Prod.Lex.left _ _ (by simp [fetchStep, foldl_processLink_i]; omega)
  · exact Prod.Lex.right _ (by simp; omega)

theorem crawlLoop_eq_none (w : World) (nb : Nat) (s : CrawlState)
    (h : crawlStep w nb s = none) : crawlLoop w nb s = s := by
  rw [crawlLoop]
  split <;> simp_all

theorem crawlLoop_eq_some (w : World) (nb : Nat) (s s' : CrawlState)
    (h : crawlStep w nb s = some s') : crawlLoop w nb s = crawlLoop w nb s' := by
  rw [crawlLoop]
  split <;> simp_all

/-- Fuel-bounded mirror of the crawl loop, used only to evaluate concrete
runs by kernel reduction. -/
def crawlLoopF (w : World) (nb : Nat) : Nat → CrawlState → Option CrawlState
  | 0, _ => none
  | fuel + 1, s =>
    match crawlStep w nb s with
    | none => some s
    | some s' => crawlLoopF w nb fuel s'

theorem crawlLoopF_sound (w : World) (nb : Nat) :
    ∀ (fuel : Nat) (s s' : CrawlState), crawlLoopF w nb fuel s = some s' →
      crawlLoop w nb s = s' := by
  intro fuel
  induction fuel with
  | zero => intro s s' h; simp [crawlLoopF] at h
  | succ n ih =>
    intro s s' h
    unfold crawlLoopF at h
    cases hstep : crawlStep w nb s with
    | none => rw [hstep] at h; rw [crawlLoop_eq_none w nb s hstep]; exact Option.some.inj h
    | some s1 => rw [hstep] at h; rw [crawlLoop_eq_some w nb s s1 hstep]; exact ih _ _ h

/-- Any property preserved by every loop iteration holds of the loop result. -/
theorem crawlLoop_pres (w : World) (nb : Nat) (P : CrawlState → Prop)
    (hstep : ∀ s s', P s → crawlStep w nb s = some s' → P s') :
    ∀ s, P s → P (crawlLoop w nb s) := by
  intro s
  induction s using crawlLoop.induct w nb with
  | case1 s hnone => intro hp; rw [crawlLoop_eq_none w nb s hnone]; exact hp
  | case2 s s' hsome ih =>
    intro hp
    rw [crawlLoop_eq_some w nb s s' hsome]
    exact ih (hstep s s' hp hsome)

theorem crawlLoop_exit (w : World) (nb : Nat) (s : CrawlState) :
    (crawlLoop w nb s).urls_priority.length ≤ (crawlLoop w nb s).pos ∨
      nb ≤ (crawlLoop w nb s).i := by
  induction s using crawlLoop.induct w nb with
  | case1 s hnone =>
    rw [crawlLoop_eq_none w nb s hnone]
    exact crawlStep_none w nb s hnone
  | case2 s s' hsome ih =>
    rw [crawlLoop_eq_some w nb s s' hsome]
    exact ih

/-- Each iteration adds one record to the output exactly when it increments
the page counter, and the counter never passes the budget. -/
theorem crawlLoop_budget (w : World) (nb : Nat) :
    ∀ s : CrawlState,
      (crawlLoop w nb s).output.length + s.i = s.output.length + (crawlLoop w nb s).i ∧
      (s.i ≤ nb → (crawlLoop w nb s).i ≤ nb) := by
  intro s
  induction s using crawlLoop.induct w nb with
  | case1 s hnone => rw [crawlLoop_eq_none w nb s hnone]; exact ⟨rfl, fun h => h⟩
  | case2 s s' hsome ih =>
    rw [crawlLoop_eq_some w nb s s' hsome]
    obtain ⟨hpos, hib, hcase⟩ := crawlStep_cases w nb s s' hsome
    rcases hcase with rfl | rfl
    · have hout : (fetchStep w s s.urls_priority[s.pos]).output.length = s.output.length + 1 := by
        simp [fetchStep, foldl_processLink_output]
      have hi : (fetchStep w s s.urls_priority[s.pos]).i = s.i + 1 := by
        simp [fetchStep, foldl_processLink_i]
      constructor
      · have h1 := ih.1
        omega
      · intro _
        exact ih.2 (by omega)
    · constructor
      · exact ih.1
      · intro h
        exact ih.2 h

/-- pages_max, the hard page cap of the crawl. -/
def pages_max : Nat := 50

/-- The initial crawl state: empty output and bookkeeping, the priority
queue seeded with the start url (not marked visited), zero pages crawled. -/
def initState (url : String) : CrawlState :=
  { output := [], urls_priority := [url], urls_non_priority := [], visited := [], i := 0, pos := 0 }

/-- crawl(url, nb_pages), returning the full final loop state: the requested
page count is clamped to pages_max (reported by a print, not an error), then
the seeded queue is traversed. -/
def crawlState (w : World) (url : String) (nb_pages : Nat) : CrawlState :=
  crawlLoop w (if nb_pages > pages_max then pages_max else nb_pages) (initState url)

/-- crawl(url, nb_pages): the output corpus, one product record (carrying
the fetched url) per fetched page. -/
def crawl (w : World) (url : String) (nb_pages : Nat) : List String :=
  (crawlState w url nb_pages).output

/-! ### Components of a fetch step -/

theorem fetchStep_i (w : World) (s : CrawlState) (url : String) :
    (fetchStep w s url).i = s.i + 1 := by
  simp [fetchStep, foldl_processLink_i]

theorem fetchStep_pos (w : World) (s : CrawlState) (url : String) :
    (fetchStep w s url).pos = s.pos + 1 := by
  simp [fetchStep, foldl_processLink_pos]

theorem fetchStep_output (w : World) (s : CrawlState) (url : String) :
    (fetchStep w s url).output = s.output ++ [url] := by
  simp [fetchStep, foldl_processLink_output]

theorem fetchStep_visited (w : World) (s : CrawlState) (url : String) :
    (fetchStep w s url).visited = ((w.links url).foldl processLink s).visited := by
  simp [fetchStep]

theorem fetchStep_np (w : World) (s : CrawlState) (url : String) :
    (fetchStep w s url).urls_non_priority = ((w.links url).foldl processLink s).urls_non_priority := by
  simp [fetchStep]

theorem fetchStep_queue (w : World) (s : CrawlState) (url : String) :
    ∃ ext, (fetchStep w s url).urls_priority = s.urls_priority ++ ext := by
  obtain ⟨ext, hext⟩ := foldl_processLink_queue_ext (w.links url) s
  exact ⟨ext, by simp [fetchStep, hext]⟩

theorem fetchStep_queue_eq (w : World) (s : CrawlState) (url : String) :
    (fetchStep w s url).urls_priority = ((w.links url).foldl processLink s).urls_priority := by
  simp [fetchStep]

/-! ### Invariant: the output is bounded by the traversed part of the queue -/

/-- The iteration position never passes the queue end, and each url occurs in
the output at most as often as in the already-traversed queue positions. -/
def InvCount (s : CrawlState) : Prop :=
  s.pos ≤ s.urls_priority.length ∧
  ∀ u, s.output.count u ≤ (s.urls_priority.take s.pos).count u

theorem crawlStep_invCount (w : World) (nb : Nat) (s s' : CrawlState)
    (hp : InvCount s) (h : crawlStep w nb s = some s') : InvCount s' := by
  obtain ⟨hpos, hib, hcase⟩ := crawlStep_cases w nb s s' h
  obtain ⟨hle, hcount⟩ := hp
  rcases hcase with rfl | rfl
  · obtain ⟨ext, hq⟩ := fetchStep_queue w s s.urls_priority[s.pos]
    constructor
    · rw [hq, fetchStep_pos, List.length_append]
      omega
    · intro u
      rw [hq, fetchStep_pos, fetchStep_output,
        List.take_append_of_le_length (by omega),
        List.take_succ, List.getElem?_eq_getElem hpos]
      simp only [Option.toList_some, List.count_append]
      have := hcount u
      omega
  · constructor
    · simp only []
      omega
    · intro u
      have h1 : (s.urls_priority.take s.pos).count u ≤ (s.urls_priority.take (s.pos + 1)).count u := by
        rw [List.take_succ, List.count_append]
        omega
      exact le_trans (hcount u) h1

/-! ### Invariant: the queue is the seed followed by visited, duplicate-free urls -/

/-- The queue is the seed followed by a duplicate-free tail all of whose
entries are in the visited set. -/
def InvTail (seed : String) (s : CrawlState) : Prop :=
  ∃ t, s.urls_priority = seed :: t ∧ t.Nodup ∧ ∀ v ∈ t, v ∈ s.visited

theorem processLink_invTail (seed : String) (s : CrawlState) (l : Option String)
    (hp : InvTail seed s) : InvTail seed (processLink s l) := by
  obtain ⟨t, hq, hnd, hsub⟩ := hp
  cases l with
  | none => exact ⟨t, hq, hnd, hsub⟩
  | some u =>
    simp only [processLink]
    split
    · next hcond =>
      have hvis : u ∉ s.visited := by
        simp only [Bool.and_eq_true, Bool.not_eq_true'] at hcond
        simpa using hcond.2
      refine ⟨t ++ [u], by rw [hq]; rfl, ?_, ?_⟩
      · rw [List.nodup_append]
        refine ⟨hnd, List.nodup_singleton u, ?_⟩
        intro x hx hxu
        rw [List.mem_singleton] at hxu
        subst hxu
        exact hvis (hsub x hx)
      · intro v hv
        rcases List.mem_append.mp hv with hv | hv
        · exact List.mem_append_left _ (hsub v hv)
        · rw [List.mem_singleton] at hv
          subst hv
          exact List.mem_append_right _ (List.mem_singleton_self v)
    · split
      · exact ⟨t, hq, hnd, hsub⟩
      · exact ⟨t, hq, hnd, hsub⟩

theorem foldl_processLink_invTail (seed : String) (ls : List (Option String)) :
    ∀ s : CrawlState, InvTail seed s → InvTail seed (ls.foldl processLink s) := by
  induction ls with
  | nil => intro s hp; exact hp
  | cons l rest ih =>
    intro s hp
    rw [List.foldl_cons]
    exact ih _ (processLink_invTail seed s l hp)

theorem crawlStep_invTail (seed : String) (w : World) (nb : Nat) (s s' : CrawlState)
    (hp : InvTail seed s) (h : crawlStep w nb s = some s') : InvTail seed s' := by
  obtain ⟨hpos, hib, hcase⟩ := crawlStep_cases w nb s s' h
  rcases hcase with rfl | rfl
  · obtain ⟨t, hq, hnd, hsub⟩ :=
      foldl_processLink_invTail seed (w.links s.urls_priority[s.pos]) s hp
    refine ⟨t, ?_, hnd, ?_⟩
    · rw [fetchStep_queue_eq, hq]
    · rw [fetchStep_visited]
      exact hsub
  · obtain ⟨t, hq, hnd, hsub⟩ := hp
    exact ⟨t, hq, hnd, hsub⟩

/-! ### Invariant: only product-shaped urls are ever appended to the queue -/

/-- The queue is the seed followed by product-shaped urls only. -/
def InvTailProduct (seed : String) (s : CrawlState) : Prop :=
  ∃ t, s.urls_priority = seed :: t ∧ ∀ v ∈ t, productShaped v = true

theorem processLink_invTailProduct (seed : String) (s : CrawlState) (l : Option String)
    (hp : InvTailProduct seed s) : InvTailProduct seed (processLink s l) := by
  obtain ⟨t, hq, hprod⟩ := hp
  cases l with
  | none => exact ⟨t, hq, hprod⟩
  | some u =>
    simp only [processLink]
    split
    · next hcond =>
      have hu : productShaped u = true := by
        simp only [Bool.and_eq_true] at hcond
        exact hcond.1
      refine ⟨t ++ [u], by rw [hq]; rfl, ?_⟩
      intro v hv
      rcases List.mem_append.mp hv with hv | hv
      · exact hprod v hv
      · rw [List.mem_singleton] at hv
        subst hv
        exact hu
    · split
      · exact ⟨t, hq, hprod⟩
      · exact ⟨t, hq, hprod⟩

theorem foldl_processLink_invTailProduct (seed : String) (ls : List (Option String)) :
    ∀ s : CrawlState, InvTailProduct seed s → InvTailProduct seed (ls.foldl processLink s) := by
  induction ls with
  | nil => intro s hp; exact hp
  | cons l rest ih =>
    intro s hp
    rw [List.foldl_cons]
    exact ih _ (processLink_invTailProduct seed s l hp)

theorem crawlStep_invTailProduct (seed : String) (w : World) (nb : Nat) (s s' : CrawlState)
    (hp : InvTailProduct seed s) (h : crawlStep w nb s = some s') : InvTailProduct seed s' := by
  obtain ⟨hpos, hib, hcase⟩ := crawlStep_cases w nb s s' h
  rcases hcase with rfl | rfl
  · obtain ⟨t, hq, hprod⟩ :=
      foldl_processLink_invTailProduct seed (w.links s.urls_priority[s.pos]) s hp
    refine ⟨t, ?_, hprod⟩
    rw [fetchStep_queue_eq, hq]
  · exact hp

/-! ### Invariant: non-product links of fetched pages land in the bookkeeping list -/

theorem processLink_np_mono (s : CrawlState) (l : Option String) (u : String)
    (h : u ∈ s.urls_non_priority) : u ∈ (processLink s l).urls_non_priority := by
  cases l with
  | none => exact h
  | some v =>
    simp only [processLink]
    split
    · exact h
    · split
      · exact List.mem_append_left _ h
      · exact h

theorem foldl_processLink_np_mono (ls : List (Option String)) :
    ∀ (s : CrawlState) (u : String), u ∈ s.urls_non_priority →
      u ∈ (ls.foldl processLink s).urls_non_priority := by
  induction ls with
  | nil => intro s u h; exact h
  | cons l rest ih =>
    intro s u h
    rw [List.foldl_cons]
    exact ih _ u (processLink_np_mono s l u h)

theorem processLink_np_self (s : CrawlState) (u : String)
    (h : productShaped u = false) : u ∈ (processLink s (some u)).urls_non_priority := by
  simp only [processLink]
  split
  · next hcond =>
    simp only [Bool.and_eq_true] at hcond
    rw [hcond.1] at h
    exact absurd h (by simp)
  · split
    · exact List.mem_append_right _ (List.mem_singleton_self u)
    · next hcond =>
      simp only [Bool.not_eq_true', Bool.not_eq_false] at hcond
      simpa using hcond

theorem foldl_processLink_np_covers (ls : List (Option String)) :
    ∀ (s : CrawlState) (u : String), some u ∈ ls → productShaped u = false →
      u ∈ (ls.foldl processLink s).urls_non_priority := by
  induction ls with
  | nil => intro s u h; exact absurd h (List.not_mem_nil _)
  | cons l rest ih =>
    intro s u hmem hprod
    rw [List.foldl_cons]
    rcases List.mem_cons.mp hmem with heq | hrest
    · subst heq
      exact foldl_processLink_np_mono rest _ u (processLink_np_self s u hprod)
    · exact ih _ u hrest hprod

/-- Every non-product link of every already-fetched page is recorded in the
non-priority bookkeeping list. -/
def InvNp (w : World) (s : CrawlState) : Prop :=
  ∀ p ∈ s.output, ∀ u, some u ∈ w.links p → productShaped u = false →
    u ∈ s.urls_non_priority

theorem crawlStep_invNp (w : World) (nb : Nat) (s s' : CrawlState)
    (hp : InvNp w s) (h : crawlStep w nb s = some s') : InvNp w s' := by
  obtain ⟨hpos, hib, hcase⟩ := crawlStep_cases w nb s s' h
  rcases hcase with rfl | rfl
  · intro p hmem u hlink hprod
    rw [fetchStep_output] at hmem
    rw [fetchStep_np]
    rcases List.mem_append.mp hmem with hold | hnew
    · exact foldl_processLink_np_mono _ _ u (hp p hold u hlink hprod)
    · rw [List.mem_singleton] at hnew
      subst hnew
      exact foldl_processLink_np_covers _ _ u hlink hprod
  · exact hp

/-! ### Invariant: the visited set holds product links of fetched pages only -/

theorem processLink_visited_src (s : CrawlState) (l : Option String) (u : String)
    (h : u ∈ (processLink s l).visited) :
    u ∈ s.visited ∨ (productShaped u = true ∧ l = some u) := by
  cases l with
  | none => exact Or.inl h
  | some v =>
    simp only [processLink] at h
    split at h
    · next hcond =>
      simp only [Bool.and_eq_true] at hcond
      rcases List.mem_append.mp h with hold | hnew
      · exact Or.inl hold
      · rw [List.mem_singleton] at hnew
        subst hnew
        exact Or.inr ⟨hcond.1, rfl⟩
    · split at h
      · exact Or.inl h
      · exact Or.inl h

theorem foldl_processLink_visited_src (ls : List (Option String)) :
    ∀ (s : CrawlState) (u : String), u ∈ (ls.foldl processLink s).visited →
      u ∈ s.visited ∨ (productShaped u = true ∧ some u ∈ ls) := by
  induction ls with
  | nil => intro s u h; exact Or.inl h
  | cons l rest ih =>
    intro s u h
    rw [List.foldl_cons] at h
    rcases ih _ u h with hmid | ⟨hprod, hmem⟩
    · rcases processLink_visited_src s l u hmid with hold | ⟨hprod, rfl⟩
      · exact Or.inl hold
      · exact Or.inr ⟨hprod, List.mem_cons_self _ _⟩
    · exact Or.inr ⟨hprod, List.mem_cons_of_mem l hmem⟩

/-- Every visited url is product-shaped and occurs as a link on some fetched
page of the output. -/
def InvVisited (w : World) (s : CrawlState) : Prop :=
  ∀ u ∈ s.visited, productShaped u = true ∧ ∃ p ∈ s.output, some u ∈ w.links p

theorem crawlStep_invVisited (w : World) (nb : Nat) (s s' : CrawlState)
    (hp : InvVisited w s) (h : crawlStep w nb s = some s') : InvVisited w s' := by
  obtain ⟨hpos, hib, hcase⟩ := crawlStep_cases w nb s s' h
  rcases hcase with rfl | rfl
  · intro u hmem
    rw [fetchStep_visited] at hmem
    rw [fetchStep_output]
    rcases foldl_processLink_visited_src _ _ u hmem with hold | ⟨hprod, hlink⟩
    · obtain ⟨hprod, p, hpout, hplink⟩ := hp u hold
      exact ⟨hprod, p, List.mem_append_left _ hpout, hplink⟩
    · exact ⟨hprod, s.urls_priority[s.pos],
        List.mem_append_right _ (List.mem_singleton_self _), hlink⟩
  · exact hp

/-! ### Concrete worlds for witnesses and counterexamples -/

def pEx1 : String := "https://h/product/1"

def pEx2 : String := "https://h/product/2"

def pEx3 : String := "https://h/product/3"

/-- A site whose seed product page links to two product pages that both link
back to the seed. -/
def wEx : World where
  canCrawl := fun _ => true
  links := fun u =>
    if u = pEx1 then [some pEx2, some pEx3]
    else if u = pEx2 then [some pEx1]
    else if u = pEx3 then [some pEx1]
    else []

def sEx : CrawlState :=
  { output := [pEx1, pEx2, pEx3, pEx1], urls_priority := [pEx1, pEx2, pEx3, pEx1],
    urls_non_priority := [pEx1, pEx2, pEx3], visited := [pEx2, pEx3, pEx1], i := 4, pos := 4 }

theorem wEx_run : crawlState wEx pEx1 5 = sEx :=
  crawlLoopF_sound wEx 5 10 (initState pEx1) sEx (by decide)

theorem wEx_out : crawl wEx pEx1 5 = [pEx1, pEx2, pEx3, pEx1] := by
  unfold crawl
  rw [wEx_run]
  rfl

def oEx : String := "https://h/other"

/-- A site whose non-product seed page links back to itself. -/
def wSelf : World where
  canCrawl := fun _ => true
  links := fun u => if u = oEx then [some oEx] else []

def sSelf : CrawlState :=
  { output := [oEx], urls_priority := [oEx], urls_non_priority := [oEx],
    visited := [], i := 1, pos := 1 }

theorem wSelf_run : crawlState wSelf oEx 1 = sSelf :=
  crawlLoopF_sound wSelf 1 5 (initState oEx) sSelf (by decide)

theorem wSelf_out : crawl wSelf oEx 1 = [oEx] := by
  unfold crawl
  rw [wSelf_run]
  rfl

/-! ### Remaining concrete data for witnesses and counterexamples -/

def rv (n : Int) : Review := { id := none, rating := n, content := none }

def dataW2 : List (String × List Review) := [("u", [rv 3, rv 5, rv 1])]

def getDeny : String → Except Unit RobotsResponse :=
  fun _ => Except.ok { status_code := 200, text := "User-agent: *\nDisallow: /" }

def getDown : String → Except Unit RobotsResponse := fun _ => Except.error ()

/-! ### Claim C1 -/

/-- Claim C1, counterexample to the claim as stated: over a corpus in which
two records share a url, a position list stored for the shared url can fail
to describe the second record, so the universally quantified claim is false. -/
theorem claim1_cex : ¬ (∀ (tokenize : String → List String) (data : List (String × String))
    (u text : String), (u, text) ∈ data → ∀ (t : String) (ps : List Nat),
      lookup2 (create_inverted_index tokenize data) t u = some ps →
      (∀ p ∈ ps, (tokenize text).get? p = some t) ∧
      (∀ j, (tokenize text).get? j = some t → j ∈ ps) ∧ List.Sorted (· < ·) ps) := by
  intro h
  have h2 := (h simpleTokenize [("u", "x"), ("u", "y")] "u" "y" (by simp) "x" [0]
    (by decide)).1 0 (by decide)
  exact absurd h2 (by decide)

/-- Claim C1 (amended): provided the record urls of the corpus are pairwise
distinct, every position list stored under index[t][d.url] by
create_inverted_index consists exactly of the indices at which t occurs in
the tokenized field of d, in strictly ascending order. -/
theorem claim1_amended (tokenize : String → List String) (data : List (String × String))
    (hnd : (data.map Prod.fst).Nodup) (u text : String) (hmem : (u, text) ∈ data)
    (t : String) (ps : List Nat)
    (hfound : lookup2 (create_inverted_index tokenize data) t u = some ps) :
    (∀ p ∈ ps, (tokenize text).get? p = some t) ∧
    (∀ j, (tokenize text).get? j = some t → j ∈ ps) ∧ List.Sorted (· < ·) ps := by
  rw [lookup2_create_inverted_index tokenize data hnd u text hmem t] at hfound
  by_cases hmemtok : t ∈ tokenize text
  · rw [if_pos hmemtok] at hfound
    obtain rfl : occFrom 0 t (tokenize text) = ps := Option.some.inj hfound
    refine ⟨?_, ?_, occFrom_sorted t (tokenize text) 0⟩
    · intro p hp
      obtain ⟨j, hj, hpj⟩ := (mem_occFrom t (tokenize text) 0 p).mp hp
      have hp2 : p = j := by omega
      rw [hp2]
      exact hj
    · intro j hj
      exact (mem_occFrom t (tokenize text) 0 j).mpr ⟨j, hj, by omega⟩
  · rw [if_neg hmemtok] at hfound
    exact absurd hfound (by simp)

/-- Claim C1, witness: a concrete corpus and token where the amended theorem
applies and its hypotheses hold. -/
theorem claim1_witness :
    ((([("u1", "red apple red")] : List (String × String)).map Prod.fst).Nodup ∧
      ("u1", "red apple red") ∈ ([("u1", "red apple red")] : List (String × String)) ∧
      lookup2 (create_inverted_index simpleTokenize [("u1", "red apple red")]) "red" "u1" =
        some [0, 2]) ∧
    ((∀ p ∈ [0, 2], (simpleTokenize "red apple red").get? p = some "red") ∧
      (∀ j, (simpleTokenize "red apple red").get? j = some "red" → j ∈ [0, 2]) ∧
      List.Sorted (· < ·) [0, 2]) :=
  ⟨⟨by decide, by decide, by decide⟩,
    claim1_amended simpleTokenize [("u1", "red apple red")] (by decide) "u1" "red apple red"
      (by decide) "red" [0, 2] (by decide)⟩

/-! ### Claim C2 -/

/-- Claim C2, counterexample to the claim as stated: when two records share a
url, the index maps that url to the statistics of the last record only, so
the first record is not mapped to its own statistics. -/
theorem claim2_cex : ¬ (∀ (data : List (String × List Review)) (u : String)
    (revs : List Review), (u, revs) ∈ data →
      dictGet (create_reviews_index data) u = some (reviewStats revs)) := by
  intro h
  have h2 := h [("u", [rv 3]), ("u", [])] "u" [rv 3] (by simp)
  have h3 : dictGet (create_reviews_index [("u", [rv 3]), ("u", [])]) "u" =
      some (reviewStats []) := rfl
  rw [h3] at h2
  have h4 : (reviewStats []).total_reviews = (reviewStats [rv 3]).total_reviews := by
    rw [Option.some.inj h2]
  simp [reviewStats] at h4

/-- Claim C2 (amended): provided the record urls of the corpus are pairwise
distinct, create_reviews_index maps each record url to exactly the triple
with total_reviews the number of reviews, mean_mark the arithmetic mean of
the ratings (0 for an empty review list), and last_rating the rating of the
last review (null for an empty review list). -/
theorem claim2_amended (data : List (String × List Review))
    (hnd : (data.map Prod.fst).Nodup) (u : String) (revs : List Review)
    (hmem : (u, revs) ∈ data) :
    dictGet (create_reviews_index data) u = some (reviewStats revs) ∧
    (reviewStats revs).total_reviews = revs.length ∧
    (revs = [] → reviewStats revs = ⟨0, 0, none⟩) ∧
    (∀ hne : revs ≠ [],
      (reviewStats revs).mean_mark * (revs.length : ℚ) =
        (((revs.map Review.rating).sum : Int) : ℚ) ∧
      (reviewStats revs).last_rating = some ((revs.getLast hne).rating)) := by
  refine ⟨reviews_foldl_found u revs data hnd hmem [], rfl, ?_, ?_⟩
  · rintro rfl
    rfl
  · intro hne
    have hlen : 0 < revs.length := List.length_pos.mpr hne
    constructor
    · simp only [reviewStats, if_pos hlen]
      exact div_mul_cancel₀ _ (Nat.cast_ne_zero.mpr (by omega))
    · simp only [reviewStats, if_pos hlen]
      rw [List.getLast?_eq_getLast_of_ne_nil hne]
      rfl

/-- Claim C2, witness: ratings 3, 5, 1 yield mean 3 and last rating 1, via
the amended theorem at a concrete corpus. -/
theorem claim2_witness :
    ((dataW2.map Prod.fst).Nodup ∧ ("u", [rv 3, rv 5, rv 1]) ∈ dataW2) ∧
    dictGet (create_reviews_index dataW2) "u" = some (reviewStats [rv 3, rv 5, rv 1]) ∧
    (reviewStats [rv 3, rv 5, rv 1]).mean_mark = 3 ∧
    (reviewStats [rv 3, rv 5, rv 1]).last_rating = some 1 := by
  have h := claim2_amended dataW2 (by decide) "u" [rv 3, rv 5, rv 1] (by decide)
  refine ⟨⟨by decide, by decide⟩, h.1, ?_, rfl⟩
  norm_num [reviewStats, rv]

/-! ### Claim C9 -/

/-- Claim C9: writing one positional entry per token occurrence (the source
behaviour) produces exactly the same index as writing one entry per distinct
token of each document: repeated occurrences overwrite with the identical,
already-computed position list. -/
theorem claim9_equiv (tokenize : String → List String) (data : List (String × String)) :
    create_inverted_index tokenize data = create_inverted_index_distinct tokenize data := by
  suffices h : ∀ index, data.foldl (cii_step tokenize) index =
      data.foldl (cii_step_distinct tokenize) index from h []
  induction data with
  | nil => intro index; rfl
  | cons r rest ih =>
    intro index
    rw [List.foldl_cons, List.foldl_cons, ih (cii_step tokenize index r)]
    congr 1
    simp only [cii_step, cii_step_distinct]
    exact foldl_indexWrite_firstOcc r.1 (word_positions (tokenize r.2)) (tokenize r.2) index

/-! ### Claim C7 -/

/-- Claim C7, counterexample to the claim as stated: a record whose field is
genuinely missing (a non-string null in the dataframe) makes the tokenizer
raise, aborting the whole inverted-index build, so the builders do not
tolerate missing title or description fields. -/
theorem claim7_cex : ¬ (∀ (tokenize : String → List String)
    (data : List (String × Option String)),
    ∃ idx, create_inverted_index_opt tokenize data = Except.ok idx) := by
  intro h
  obtain ⟨idx, hidx⟩ := h simpleTokenize [("u", none)]
  have h2 : create_inverted_index_opt simpleTokenize [("u", none)] = Except.error () := rfl
  rw [h2] at hidx
  exact absurd hidx (by simp)

/-- Claim C7 (amended): the builders tolerate empty fields and missing
feature keys without raising: when every record has its field present the
inverted-index build succeeds; a record with an empty text field
participates and contributes zero tokens; a record without the requested
feature key contributes nothing to the feature index; a record with zero
reviews yields the zero aggregate.  Only a genuinely absent (null)
title or description aborts the build. -/
theorem claim7_amended (tokenize : String → List String)
    (data : List (String × Option String)) (hall : ∀ r ∈ data, r.2.isSome = true)
    (u : String) (rest : List (String × String)) (htok : tokenize "" = [])
    (feats : Dict String) (f : String) (hf : dictGet feats f = none)
    (frows : List (String × Dict String)) :
    (∃ idx, create_inverted_index_opt tokenize data = Except.ok idx) ∧
    create_inverted_index tokenize ((u, "") :: rest) = create_inverted_index tokenize rest ∧
    create_features_index tokenize ((u, feats) :: frows) f =
      create_features_index tokenize frows f ∧
    dictGet (create_reviews_index [(u, [])]) u = some ⟨0, 0, none⟩ := by
  refine ⟨⟨_, create_inverted_index_opt_total tokenize data hall []⟩, ?_, ?_, ?_⟩
  · unfold create_inverted_index
    rw [List.foldl_cons]
    congr 1
    simp [cii_step, htok]
  · unfold create_features_index
    rw [List.foldl_cons]
    congr 1
    simp [cfi_step, hf]
  · have h1 : create_reviews_index [(u, [])] = dictSet [] u (reviewStats []) := rfl
    rw [h1, dictGet_set_self]
    rfl

/-- Claim C7, witness: concrete corpora where the amended theorem applies
and its hypotheses hold. -/
theorem claim7_witness :
    ((∀ r ∈ ([("u1", some "apple")] : List (String × Option String)), r.2.isSome = true) ∧
      simpleTokenize "" = [] ∧
      dictGet ([("brand", "Acme")] : Dict String) "material" = none) ∧
    (∃ idx, create_inverted_index_opt simpleTokenize [("u1", some "apple")] = Except.ok idx) ∧
    create_inverted_index simpleTokenize (("u0", "") :: [("u1", "apple")]) =
      create_inverted_index simpleTokenize [("u1", "apple")] ∧
    create_features_index simpleTokenize (("u0", [("brand", "Acme")]) :: []) "material" =
      create_features_index simpleTokenize [] "material" ∧
    dictGet (create_reviews_index [("u0", [])]) "u0" = some ⟨0, 0, none⟩ :=
  ⟨⟨by decide, rfl, rfl⟩,
    claim7_amended simpleTokenize [("u1", some "apple")] (by decide) "u0" [("u1", "apple")]
      rfl [("brand", "Acme")] "material" rfl []⟩

/-! ### Claim C4 -/

/-- Claim C4, counterexample to the claim as stated: a transport-level fetch
error on the robots resource is not treated as no restriction found; the
exception propagates out of can_crawl instead of returning true. -/
theorem claim4_cex : ¬ (∀ (get : String → Except Unit RobotsResponse) (url : String) (e : Unit),
    get (url ++ "/robots.txt") = Except.error e → can_crawl get url = Except.ok true) := by
  intro h
  have h2 := h getDown "https://h" () rfl
  have h3 : can_crawl getDown "https://h" = Except.error () := rfl
  rw [h3] at h2
  exact absurd h2 (by simp)

/-- Claim C4 (amended): can_crawl returns false exactly when the robots
resource yields an HTTP 200 response whose body contains the substring
"Disallow: /" (which any disallow directive for a path starting with a slash
matches, regardless of user agent); a non-200 response is treated as no
restriction; a transport-level fetch error is not caught and propagates out
of can_crawl. -/
theorem claim4_amended (get : String → Except Unit RobotsResponse) (url : String) :
    (can_crawl get url = Except.ok false ↔
      ∃ r, get (url ++ "/robots.txt") = Except.ok r ∧ r.status_code = 200 ∧
        strContains r.text "Disallow: /" = true) ∧
    (∀ e, get (url ++ "/robots.txt") = Except.error e →
      can_crawl get url = Except.error e) := by
  cases hget : get (url ++ "/robots.txt") with
  | error e =>
    have hcc : can_crawl get url = Except.error e := by
      unfold can_crawl
      rw [hget]
    constructor
    · constructor
      · intro h2
        rw [hcc] at h2
        exact absurd h2 (by simp)
      · rintro ⟨r, hr, -, -⟩
        exact absurd hr (by simp)
    · intro e2 he2
      rw [hcc]
  | ok r =>
    have hcc : can_crawl get url = (if r.status_code = 200 then
        if strContains r.text "Disallow: /" then Except.ok false else Except.ok true
      else Except.ok true) := by
      unfold can_crawl
      rw [hget]
    constructor
    · constructor
      · intro h2
        rw [hcc] at h2
        by_cases h200 : r.status_code = 200
        · rw [if_pos h200] at h2
          by_cases hdis : strContains r.text "Disallow: /" = true
          · exact ⟨r, rfl, h200, hdis⟩
          · rw [if_neg hdis] at h2
            exact absurd h2 (by simp)
        · rw [if_neg h200] at h2
          exact absurd h2 (by simp)
      · rintro ⟨r2, hr2, h200, hdis⟩
        obtain rfl : r = r2 := Except.ok.inj hr2
        rw [hcc, if_pos h200, if_pos hdis]
    · intro e he
      exact absurd he (by simp)

/-- Claim C4, witness: a robots body with a catch-all disallow yields false,
and a failing fetch yields the propagated error, via the amended theorem. -/
theorem claim4_witness :
    (getDeny ("https://h" ++ "/robots.txt") =
        Except.ok { status_code := 200, text := "User-agent: *\nDisallow: /" } ∧
      strContains "User-agent: *\nDisallow: /" "Disallow: /" = true ∧
      getDown ("https://h" ++ "/robots.txt") = Except.error ()) ∧
    can_crawl getDeny "https://h" = Except.ok false ∧
    can_crawl getDown "https://h" = Except.error () :=
  ⟨⟨rfl, by decide, rfl⟩,
    (claim4_amended getDeny "https://h").1.mpr
      ⟨{ status_code := 200, text := "User-agent: *\nDisallow: /" }, rfl, rfl, by decide⟩,
    (claim4_amended getDown "https://h").2 () rfl⟩

/-! ### Claim C5 -/

/-- Claim C5: the requested page count is clamped to the hard cap pages_max
(reported, not an error), and the crawl fetches and processes at most
min(requestedPages, pages_max) pages: the output holds one record per
processed page. -/
theorem claim5_budget (w : World) (url : String) (nb_pages : Nat) :
    (crawl w url nb_pages).length ≤ min nb_pages pages_max := by
  have h := crawlLoop_budget w (if nb_pages > pages_max then pages_max else nb_pages)
    (initState url)
  have h1 := h.1
  have h2 := h.2 (Nat.zero_le _)
  have hinit_i : (initState url).i = 0 := rfl
  have hinit_out : (initState url).output.length = 0 := rfl
  rw [hinit_i, hinit_out] at h1
  have hmin : (if nb_pages > pages_max then pages_max else nb_pages) =
      min nb_pages pages_max := by
    unfold pages_max
    split <;> omega
  unfold crawl crawlState
  omega

/-! ### Claim C8 -/

/-- Claim C8: the crawl terminates (crawlLoop is a total function); its loop
ends when the priority queue is exhausted (the position has reached the
queue end) or when the clamped page budget is reached, whichever comes
first, even though the queue grows while being traversed. -/
theorem claim8_termination (w : World) (url : String) (nb_pages : Nat) :
    (crawlState w url nb_pages).urls_priority.length ≤ (crawlState w url nb_pages).pos ∨
      (if nb_pages > pages_max then pages_max else nb_pages) ≤ (crawlState w url nb_pages).i := by
  unfold crawlState
  exact crawlLoop_exit w _ (initState url)

/-! ### Claim C3 -/

/-- Claim C3, counterexample to the claim as stated: the seed url is
enqueued without being marked visited, so when two crawled pages both link
back to a product-shaped seed, the seed is enqueued a second time and its
record appears twice in the output. -/
theorem claim3_cex : ¬ (∀ (w : World) (url : String) (nb_pages : Nat),
    (∀ v ∈ (crawlState w url nb_pages).urls_priority, v ∈ (crawlState w url nb_pages).visited) ∧
    (∀ u, productShaped u = true →
      (∃ p q, p ∈ crawl w url nb_pages ∧ q ∈ crawl w url nb_pages ∧ p ≠ q ∧
        some u ∈ w.links p ∧ some u ∈ w.links q) →
      (crawl w url nb_pages).count u ≤ 1)) := by
  intro h
  have hmem2 : pEx2 ∈ crawl wEx pEx1 5 := by rw [wEx_out]; decide
  have hmem3 : pEx3 ∈ crawl wEx pEx1 5 := by rw [wEx_out]; decide
  have h2 := (h wEx pEx1 5).2 pEx1 (by decide)
    ⟨pEx2, pEx3, hmem2, hmem3, by decide, by decide, by decide⟩
  rw [wEx_out] at h2
  exact absurd h2 (by decide)

/-- Claim C3 (amended): every url enqueued during the traversal (everything
in the queue after the seed) is in the visited set and occurs in the queue
only once, and consequently every url other than the seed appears in the
crawl output at most once. -/
theorem claim3_amended (w : World) (url : String) (nb_pages : Nat) :
    (∀ v ∈ (crawlState w url nb_pages).urls_priority.tail,
        v ∈ (crawlState w url nb_pages).visited) ∧
    (crawlState w url nb_pages).urls_priority.tail.Nodup ∧
    (∀ u, u ≠ url → (crawl w url nb_pages).count u ≤ 1) := by
  have htail : InvTail url (crawlState w url nb_pages) := by
    unfold crawlState
    exact crawlLoop_pres w _ (InvTail url)
      (fun s s' hp h => crawlStep_invTail url w _ s s' hp h)
      (initState url) ⟨[], rfl, List.nodup_nil, by simp⟩
  have hcount : InvCount (crawlState w url nb_pages) := by
    unfold crawlState
    exact crawlLoop_pres w _ InvCount (fun s s' hp h => crawlStep_invCount w _ s s' hp h)
      (initState url) ⟨by simp [initState], by simp [initState]⟩
  obtain ⟨t, hq, hnd, hsub⟩ := htail
  obtain ⟨hle, hcnt⟩ := hcount
  refine ⟨?_, ?_, ?_⟩
  · intro v hv
    rw [hq, List.tail_cons] at hv
    exact hsub v hv
  · rw [hq, List.tail_cons]
    exact hnd
  · intro u hu
    have h1 := hcnt u
    have h2 := (List.take_sublist (crawlState w url nb_pages).pos
      (crawlState w url nb_pages).urls_priority).count_le u
    have h3 : (crawlState w url nb_pages).urls_priority.count u = List.count u t := by
      rw [hq, List.count_cons, beq_eq_false_iff_ne.mpr (fun hh => hu hh.symm)]
      simp
    have h4 : List.count u t ≤ 1 := List.nodup_iff_count_le_one.mp hnd u
    unfold crawl
    omega

/-- Claim C3, witness: a discovered product url other than the seed appears
at most once in a concrete crawl, via the amended theorem. -/
theorem claim3_witness : pEx2 ≠ pEx1 ∧ (crawl wEx pEx1 5).count pEx2 ≤ 1 :=
  ⟨by decide, (claim3_amended wEx pEx1 5).2.2 pEx2 (by decide)⟩

/-! ### Claim C6 -/

/-- Claim C6, counterexample to the claim as stated: a non-product seed
whose page links back to itself is a discovered non-product link that was
nevertheless fetched (as the seed) and sits in the priority queue, so the
claim fails for the seed url. -/
theorem claim6_cex : ¬ (∀ (w : World) (url : String) (nb_pages : Nat) (u : String),
    (∃ p ∈ crawl w url nb_pages, some u ∈ w.links p) → productShaped u = false →
    u ∉ crawl w url nb_pages ∧ u ∉ (crawlState w url nb_pages).urls_priority) := by
  intro h
  have hdisc : ∃ p ∈ crawl wSelf oEx 1, some oEx ∈ wSelf.links p := by
    rw [wSelf_out]
    exact ⟨oEx, by decide, by decide⟩
  have h2 := h wSelf oEx 1 oEx hdisc (by decide)
  apply h2.1
  rw [wSelf_out]
  decide

/-- Claim C6 (amended): during traversal only product-shaped urls are ever
appended to the priority queue (everything in the queue after the seed is
product-shaped), every fetched url other than the seed is product-shaped,
and every non-product link discovered on a fetched page is recorded in the
separate non-priority bookkeeping list. -/
theorem claim6_amended (w : World) (url : String) (nb_pages : Nat) :
    (∀ v ∈ (crawlState w url nb_pages).urls_priority.tail, productShaped v = true) ∧
    (∀ u ∈ crawl w url nb_pages, u = url ∨ productShaped u = true) ∧
    (∀ p ∈ crawl w url nb_pages, ∀ u, some u ∈ w.links p → productShaped u = false →
      u ∈ (crawlState w url nb_pages).urls_non_priority) := by
  have hprod : InvTailProduct url (crawlState w url nb_pages) := by
    unfold crawlState
    exact crawlLoop_pres w _ (InvTailProduct url)
      (fun s s' hp h => crawlStep_invTailProduct url w _ s s' hp h)
      (initState url) ⟨[], rfl, by simp⟩
  have hcount : InvCount (crawlState w url nb_pages) := by
    unfold crawlState
    exact crawlLoop_pres w _ InvCount (fun s s' hp h => crawlStep_invCount w _ s s' hp h)
      (initState url) ⟨by simp [initState], by simp [initState]⟩
  have hnp : InvNp w (crawlState w url nb_pages) := by
    unfold crawlState
    exact crawlLoop_pres w _ (InvNp w) (fun s s' hp h => crawlStep_invNp w _ s s' hp h)
      (initState url) (fun p hp => absurd hp (List.not_mem_nil p))
  obtain ⟨t, hq, hpr⟩ := hprod
  refine ⟨?_, ?_, ?_⟩
  · intro v hv
    rw [hq, List.tail_cons] at hv
    exact hpr v hv
  · intro u hu
    have h1 : 0 < (crawl w url nb_pages).count u := List.count_pos_iff.mpr hu
    have h2 := hcount.2 u
    unfold crawl at h1
    have h3 : 0 < ((crawlState w url nb_pages).urls_priority.take
        (crawlState w url nb_pages).pos).count u := by omega
    have h4 := List.count_pos_iff.mp h3
    have h5 : u ∈ (crawlState w url nb_pages).urls_priority :=
      (List.take_sublist _ _).subset h4
    rw [hq] at h5
    rcases List.mem_cons.mp h5 with heq | hmem
    · exact Or.inl heq
    · exact Or.inr (hpr u hmem)
  · intro p hp u hl hprod2
    exact hnp p hp u hl hprod2

/-- Claim C6, witness: a fetched url of a concrete crawl other than the seed
is product-shaped, via the amended theorem. -/
theorem claim6_witness :
    pEx2 ∈ crawl wEx pEx1 5 ∧ (pEx2 = pEx1 ∨ productShaped pEx2 = true) :=
  ⟨by rw [wEx_out]; decide,
    (claim6_amended wEx pEx1 5).2.1 pEx2 (by rw [wEx_out]; decide)⟩

/-! ### Claim C10 -/

/-- Claim C10: the act of seeding never adds the seed to the visited set:
every visited url is a product-shaped link discovered on some fetched page;
consequently, in a concrete world where the seed is product-shaped and
crawled pages link back to it, the seed is enqueued a second time and its
record is fetched and emitted twice, so the at-most-once guarantee does not
cover the seed. -/
theorem claim10_seed (w : World) (url : String) (nb_pages : Nat) :
    (∀ u ∈ (crawlState w url nb_pages).visited,
      productShaped u = true ∧ ∃ p ∈ crawl w url nb_pages, some u ∈ w.links p) ∧
    ((crawl wEx pEx1 5).count pEx1 = 2 ∧ productShaped pEx1 = true ∧
      ∃ p ∈ crawl wEx pEx1 5, some pEx1 ∈ wEx.links p) := by
  constructor
  · have hvis : InvVisited w (crawlState w url nb_pages) := by
      unfold crawlState
      exact crawlLoop_pres w _ (InvVisited w)
        (fun s s' hp h => crawlStep_invVisited w _ s s' hp h)
        (initState url) (fun u hu => absurd hu (List.not_mem_nil u))
    intro u hu
    exact hvis u hu
  · refine ⟨?_, by decide, ?_⟩
    · rw [wEx_out]; decide
    · rw [wEx_out]
      exact ⟨pEx2, by decide, by decide⟩

/-- Claim C10, witness: a concrete visited url is product-shaped and was
discovered as a link of a fetched page, via the theorem. -/
theorem claim10_witness :
    pEx2 ∈ (crawlState wEx pEx1 5).visited ∧
    (productShaped pEx2 = true ∧ ∃ p ∈ crawl wEx pEx1 5, some pEx2 ∈ wEx.links p) :=
  ⟨by rw [wEx_run]; decide, (claim10_seed wEx pEx1 5).1 pEx2 (by rw [wEx_run]; decide)⟩
